import Mathlib

/-!
Verification development for the download-shell repository.

The Rust sources are shallowly embedded: machine integers (`u32`) are
modelled as `Nat` with explicit `% 2 ^ 32` where wrap-around matters
(release-mode wrapping semantics), fallible conversions return `Except`,
and kernel caches / command outputs are modelled as plain lists.
-/

/-- Model of `std::net::Ipv4Addr` (four octets, most significant first). -/
structure Ipv4Addr where
  o1 : Nat
  o2 : Nat
  o3 : Nat
  o4 : Nat
deriving DecidableEq, Repr

/-- `u32::from(Ipv4Addr)` (big-endian recombination of the octets). -/
def Ipv4Addr.toU32 (ip : Ipv4Addr) : Nat :=
  ((ip.o1 * 256 + ip.o2) * 256 + ip.o3) * 256 + ip.o4

/-- `Ipv4Addr::from(u32)` (big-endian split into octets). -/
def Ipv4Addr.ofU32 (n : Nat) : Ipv4Addr :=
  ⟨n / 2 ^ 24 % 256, n / 2 ^ 16 % 256, n / 2 ^ 8 % 256, n % 256⟩

/-- Model of `nl::error::Error` (src/nl/error.rs): a numeric libnl error code. -/
structure NlError where
  error_code : Int
deriving DecidableEq, Repr

/-- Model of `nl::route::Addr` (src/nl/route.rs): the generic kernel address.
`bytes` is the underlying binary address (`nl_addr_get_binary_addr` /
`nl_addr_get_len`, each byte a `u8`), `cidrlen` is `nl_addr_get_prefixlen`. -/
structure Addr where
  bytes : List Nat
  cidrlen : Nat
deriving DecidableEq, Repr

/-- `Addr::len` (src/nl/route.rs:426). -/
def Addr.len (a : Addr) : Nat := a.bytes.length

/-- `impl TryFrom<&Addr> for Ipv4Addr` (src/nl/route.rs:516-527): fails with
libnl code 15 (`NL_AF_MISMATCH`, "AddressFamilyMismatch") unless the
underlying length is exactly 4 bytes. -/
def Ipv4Addr.tryFromAddr (a : Addr) : Except NlError Ipv4Addr :=
  if h : a.bytes.length = 4 then
    .ok ⟨a.bytes.get ⟨0, by omega⟩, a.bytes.get ⟨1, by omega⟩,
         a.bytes.get ⟨2, by omega⟩, a.bytes.get ⟨3, by omega⟩⟩
  else
    .error ⟨15⟩

/-- `impl From<Ipv4Addr> for Addr` (src/nl/route.rs:502-514): `nl_addr_parse`
of the dotted quad with `AF_INET` yields the four octets as binary address
(full 32-bit prefix length when none is given in the string). -/
def Addr.ofIpv4 (ip : Ipv4Addr) : Addr :=
  { bytes := [ip.o1, ip.o2, ip.o3, ip.o4], cidrlen := 32 }

instance {ε α : Type} [DecidableEq ε] [DecidableEq α] : DecidableEq (Except ε α)
  | .ok x, .ok y => decidable_of_iff (x = y) (by simp)
  | .ok _, .error _ => isFalse (by simp)
  | .error _, .ok _ => isFalse (by simp)
  | .error e, .error f => decidable_of_iff (e = f) (by simp)

/-- Model of `nl::route::Route` (src/nl/route.rs): only the destination
matters for the allocator; `dst` is `None` when `rtnl_route_get_dst` is null. -/
structure Route where
  dst : Option Addr
deriving DecidableEq, Repr

/-- The sort key computed inside `find_tunnel_ip_range` (src/main.rs:71-82):
destination converted to `Ipv4Addr` and then to `u32`, `None` when the route
has no destination or the conversion fails. -/
def routeKey (r : Route) : Option Nat :=
  r.dst.bind fun a =>
    match Ipv4Addr.tryFromAddr a with
    | .ok ip => some ip.toU32
    | .error _ => none

/-- Rust's derived order on `Option<u32>` restricted to `≤`
(`None` compares less than `Some`), as used by the `sort_by` comparator
in `find_tunnel_ip_range` via `partial_cmp` (src/main.rs:71-82). -/
def keyLeOpt : Option Nat → Option Nat → Prop
  | none, _ => True
  | some _, none => False
  | some x, some y => x ≤ y

instance : ∀ a b, Decidable (keyLeOpt a b) := fun a b => by
  cases a <;> cases b <;> simp only [keyLeOpt] <;> infer_instance

/-- The comparator of `routes.sort_by` in `find_tunnel_ip_range` as a
(total, transitive) relation on routes. -/
def okLe (r1 r2 : Route) : Prop := keyLeOpt (routeKey r1) (routeKey r2)

instance : DecidableRel okLe := fun r1 r2 => by
  unfold okLe; infer_instance

instance : IsTotal Route okLe := by
  constructor
  intro a b
  unfold okLe
  rcases routeKey a with _ | x <;> rcases routeKey b with _ | y <;> simp [keyLeOpt]
  omega

instance : IsTrans Route okLe := by
  constructor
  intro a b c
  unfold okLe
  rcases routeKey a with _ | x <;> rcases routeKey b with _ | y <;>
    rcases routeKey c with _ | z <;> simp [keyLeOpt]
  omega

/-- `routes.sort_by(...)` in `find_tunnel_ip_range` (src/main.rs:71-82).
Rust's `sort_by` is a stable sort for the comparator; a stable sort is
extensionally unique, so the structurally recursive stable
`List.insertionSort` computes the same list. -/
def sortRoutes (l : List Route) : List Route := List.insertionSort okLe l

/-- Rust `u32` wrapping subtraction `a - b` (release semantics),
for `a b : u32`. -/
def wrapSub32 (a b : Nat) : Nat := (a + (2 ^ 32 - b % 2 ^ 32)) % 2 ^ 32

/-- The network mask computed in `find_tunnel_ip_range` (src/main.rs:102-105):
`(0xFFFFFFFF.overflowing_shr(32 - cidrlen)).0.overflowing_shl(32 - cidrlen).0`,
with `overflowing_shr`/`overflowing_shl` taking the shift amount modulo 32 and
`32 - cidrlen` wrapping. -/
def allocMask (p : Nat) : Nat :=
  let s := wrapSub32 32 p % 32
  ((0xFFFFFFFF >>> s) <<< s) % 2 ^ 32

/-- `0xFFFFFFFF.overflowing_shr(cidrlen).0 + 1` (src/main.rs:109), the block
size added to the matched destination; the `+ 1` wraps (release semantics). -/
def allocNext (p : Nat) : Nat := ((0xFFFFFFFF >>> (p % 32)) + 1) % 2 ^ 32

/-- One iteration of the `for route in routes` loop of
`find_tunnel_ip_range` (src/main.rs:84-113), acting on the candidate. -/
def allocStep (c : Nat) (r : Route) : Nat :=
  match r.dst with
  | none => c
  | some dst =>
    if dst.cidrlen = 0 then c
    else
      match Ipv4Addr.tryFromAddr dst with
      | .error _ => c
      | .ok ip =>
        let d := ip.toU32
        if d &&& 0xFFF00000 ≠ 0xAC100000 then c
        else
          let mask := allocMask dst.cidrlen
          if d &&& mask = c &&& mask then (d + allocNext dst.cidrlen) % 2 ^ 32
          else c

/-- Result type of `find_tunnel_ip_range`: `anyhow::Result<Ipv4Addr>` with the
single `bail!` site reported as the `NoTunnelRangeAvailable` condition. -/
inductive AllocResult where
  | ok (addr : Nat)
  | noTunnelRangeAvailable
deriving DecidableEq, Repr

/-- The candidate produced by the scan loop of `find_tunnel_ip_range`,
starting from `172.16.0.0`. -/
def allocCandidate (l : List Route) : Nat :=
  (sortRoutes l).foldl allocStep 0xAC100000

/-- `find_tunnel_ip_range` (src/main.rs:66-121), as a function of the
route snapshot (the cache iteration output). -/
def find_tunnel_ip_range (l : List Route) : AllocResult :=
  if allocCandidate l &&& 0xFFF00000 ≠ 0xAC100000 then .noTunnelRangeAvailable
  else .ok (allocCandidate l)

/-- A route with destination `n` (as a 32-bit value) and prefix length `p`,
used to build concrete snapshots. -/
def mkRoute (n p : Nat) : Route :=
  { dst := some { bytes := [n / 2 ^ 24 % 256, n / 2 ^ 16 % 256, n / 2 ^ 8 % 256, n % 256],
                  cidrlen := p } }

/-- Model of `nl::netlink::Cache` together with the underlying `nl_cache`
chain (src/nl/netlink.rs:140-159): object pointers are naturals with `0` as
the null pointer, `first` is `nl_cache_get_first`, `next` abstracts
`nl_cache_get_next` (an arbitrary successor function, so the chain may have
any length or shape), and `nitems` is the reported `nl_cache_nitems`. -/
structure Cache where
  first : Nat
  next : Nat → Nat
  nitems : Nat

/-- Model of `nl::netlink::CacheIter` (src/nl/netlink.rs:170-175). -/
structure CacheIter where
  obj : Nat
  cache_size : Nat
  index : Nat
deriving DecidableEq, Repr

/-- `Cache::iter` (src/nl/netlink.rs:149-158). -/
def Cache.iter (c : Cache) : CacheIter :=
  { obj := c.first, cache_size := c.nitems, index := 0 }

/-- `CacheIter::next` (src/nl/netlink.rs:180-197): the `loop` returning the
yielded object pointer and the successor iterator state (the current object
is read before `self.obj` is overwritten with `nl_cache_get_next`, and null
objects are skipped by `continue`). -/
def CacheIter.nextItem (nf : Nat → Nat) (it : CacheIter) : Option (Nat × CacheIter) :=
  if it.index ≥ it.cache_size then none
  else if it.obj = 0 then
    CacheIter.nextItem nf ⟨nf it.obj, it.cache_size, it.index + 1⟩
  else
    some (it.obj, ⟨nf it.obj, it.cache_size, it.index + 1⟩)
termination_by it.cache_size - it.index
decreasing_by omega

theorem CacheIter.nextItem_spec (nf : Nat → Nat) (it : CacheIter) :
    ∀ x it2, CacheIter.nextItem nf it = some (x, it2) →
      it.index < it2.index ∧ it2.cache_size = it.cache_size ∧
      it2.index ≤ it2.cache_size ∧ x ≠ 0 := by
  intro x it2 h
  rw [CacheIter.nextItem.eq_def] at h
  split_ifs at h with h1 h2
  · have ih := CacheIter.nextItem_spec nf ⟨nf it.obj, it.cache_size, it.index + 1⟩ x it2 h
    dsimp only at ih
    exact ⟨by omega, ih.2.1, ih.2.2.1, ih.2.2.2⟩
  · simp only [Option.some.injEq, Prod.mk.injEq] at h
    obtain ⟨hx, hit⟩ := h
    subst hx
    subst hit
    dsimp only
    exact ⟨by omega, rfl, by omega, h2⟩
termination_by it.cache_size - it.index
decreasing_by omega

/-- All elements yielded by repeatedly calling `CacheIter::next`
(the full iteration of the cache). -/
def CacheIter.collect (nf : Nat → Nat) (it : CacheIter) : List Nat :=
  match h : CacheIter.nextItem nf it with
  | none => []
  | some (x, it2) => x :: CacheIter.collect nf it2
termination_by it.cache_size - it.index
decreasing_by
  have := CacheIter.nextItem_spec nf it x it2 h
  omega

/-- The actions of the two processes around the semaphore handshake
(src/main.rs:364-583): the child unshares, posts `unshare_signal`, waits on
`move_signal` and configures the peer interface; the parent waits on
`unshare_signal`, moves the peer link into the namespace and posts
`move_signal`. -/
inductive Act where
  | unshareNs
  | postU
  | waitM
  | config
  | waitU
  | move
  | postM
deriving DecidableEq, Repr

/-- Shared state of the two processes: the two semaphore counters and the
two program counters (child: 0 = start, 1 = unshared, 2 = posted, 3 =
released from `sem_wait(move_signal)`, 4 = peer configured; parent: 0 =
start, 1 = released from `sem_wait(unshare_signal)`, 2 = peer moved, 3 =
posted `move_signal`). -/
structure SemState where
  uSem : Nat
  mSem : Nat
  cpc : Nat
  ppc : Nat
deriving DecidableEq, Repr

/-- Initial state: `sem_init(unshare_semaphore, 1, 0)` and
`sem_init(movelink_semaphore, 1, 1)` (src/main.rs:373 and src/main.rs:387). -/
def semInit : SemState := { uSem := 0, mSem := 1, cpc := 0, ppc := 0 }

/-- One scheduled action: program order within each process is fixed by the
code, `sem_wait` is enabled only when the counter is positive (blocking
otherwise), `sem_post` increments the counter. -/
def semStep (s : SemState) (a : Act) : Option SemState :=
  match a with
  | .unshareNs => if s.cpc = 0 then some { s with cpc := 1 } else none
  | .postU => if s.cpc = 1 then some { s with cpc := 2, uSem := s.uSem + 1 } else none
  | .waitM =>
    if s.cpc = 2 then
      if s.mSem > 0 then some { s with cpc := 3, mSem := s.mSem - 1 } else none
    else none
  | .config => if s.cpc = 3 then some { s with cpc := 4 } else none
  | .waitU =>
    if s.ppc = 0 then
      if s.uSem > 0 then some { s with ppc := 1, uSem := s.uSem - 1 } else none
    else none
  | .move => if s.ppc = 1 then some { s with ppc := 2 } else none
  | .postM => if s.ppc = 2 then some { s with ppc := 3, mSem := s.mSem + 1 } else none

/-- Run a schedule (an interleaving of the two processes); `none` when some
action is not enabled at its turn. -/
def runSched (s : SemState) : List Act → Option SemState
  | [] => some s
  | a :: rest =>
    match semStep s a with
    | none => none
    | some s2 => runSched s2 rest

/-- The comment pattern searched for by the cleanup closure:
`format!("/* {firewall_comment} */")` (src/main.rs:597). -/
def patternOf (tag : String) : String := "/* " ++ tag ++ " */"

/-- Rust `str::contains` with a literal pattern: substring containment. -/
def containsSub (l pat : String) : Bool := decide (pat.toList <:+: l.toList)

/-- Rust `u8::is_ascii_whitespace`: space, tab, newline, form feed, carriage
return. -/
def isAsciiWs (c : Char) : Bool :=
  c = ' ' || c = '\t' || c = '\n' || c = '\x0c' || c = '\r'

/-- Rust `str::split_ascii_whitespace`: the non-empty chunks between runs of
ASCII whitespace. -/
def tokensOf (l : String) : List String :=
  ((l.toList.splitOnP isAsciiWs).filter (fun t => t ≠ [])).map (fun t => String.mk t)

/-- Rust `str::parse::<u16>`: an optional leading `+`, then one or more
decimal digits, value at most `u16::MAX`. -/
def parseU16 (s : String) : Option Nat :=
  let cs := s.toList
  let ds := if cs.head? = some '+' then cs.tail else cs
  if ds = [] then none
  else if ds.all (fun c => c.isDigit) then
    let v := ds.foldl (fun acc c => acc * 10 + (c.toNat - 48)) 0
    if v ≤ 65535 then some v else none
  else none

/-- Effect of one `clean_iptables` invocation: either the warning path
(no matching rule found) or the deletion of the single rule number passed to
`iptables -D`. -/
inductive CleanAction where
  | warned
  | deleted (n : Nat)
deriving DecidableEq, Repr

/-- The `clean_iptables` closure (src/main.rs:586-615) as a function of the
decoded rule-listing output (its lines) and of this run's tag: find the first
line containing `/* tag */`; if none, warn and succeed; otherwise parse the
line's first whitespace-separated token as a `u16` rule number (propagating a
parse failure as an error, as `?` does) and delete that single rule. -/
def clean_iptables (lines : List String) (tag : String) : Except String CleanAction :=
  match lines.find? (fun l => containsSub l (patternOf tag)) with
  | none => .ok .warned
  | some l =>
    match (tokensOf l).head? with
    | none => .error "could not parse rule number"
    | some tk =>
      match parseU16 tk with
      | none => .error "invalid digit found in string"
      | some n => .ok (.deleted n)

/-- `format!("dlsh{}", getpid())` (src/main.rs:267), the per-run firewall
tag. -/
def firewall_comment (pid : Nat) : String := "dlsh" ++ toString pid

/-- Arguments of the MASQUERADE rule installation (src/main.rs:273-289). -/
def masqueradeArgs (default_if tag : String) : List String :=
  ["-t", "nat", "-A", "POSTROUTING", "-o", default_if, "-j", "MASQUERADE",
   "-m", "comment", "--comment", tag]

/-- Arguments of the SNAT rule installation (src/main.rs:293-311). -/
def snatArgs (container_ip source_ip tag : String) : List String :=
  ["-t", "nat", "-A", "POSTROUTING", "-s", container_ip, "-j", "SNAT",
   "--to-source", source_ip, "-m", "comment", "--comment", tag]

/-- Arguments of the FORWARD accept rule installation (src/main.rs:346-362). -/
def forwardArgs (container_ip tag : String) : List String :=
  ["-t", "filter", "-A", "FORWARD", "-s", container_ip, "-j", "ACCEPT",
   "-m", "comment", "--comment", tag]

/-- `(2 ^ (s + t) - 1) / 2 ^ s = 2 ^ t - 1`: shifting an all-ones value right
discards the low `s` bits. -/
theorem pow_sub_one_div (s t : Nat) : (2 ^ (s + t) - 1) / 2 ^ s = 2 ^ t - 1 := by
  have hA : 0 < 2 ^ s := Nat.pos_pow_of_pos s (by omega)
  have hB : 0 < 2 ^ t := Nat.pos_pow_of_pos t (by omega)
  have hle : 2 ^ s ≤ 2 ^ t * 2 ^ s := Nat.le_mul_of_pos_left _ hB
  have hsum : 2 ^ (s + t) = 2 ^ t * 2 ^ s := by
    rw [pow_add]; ring
  have hdecomp : 2 ^ (s + t) - 1 = 2 ^ s - 1 + (2 ^ t - 1) * 2 ^ s := by
    rw [hsum, Nat.sub_mul, one_mul]
    omega
  rw [hdecomp, Nat.add_mul_div_right _ _ hA, Nat.div_eq_of_lt (by omega)]
  omega

/-- Characterization of `&&&` with a contiguous high mask `2 ^ 32 - 2 ^ s`:
it keeps exactly bits `s` through `31`. -/
theorem land_mask_eq (x s : Nat) (hs : s ≤ 32) :
    x &&& (2 ^ 32 - 2 ^ s) = x % 2 ^ 32 / 2 ^ s * 2 ^ s := by
  have hmask : 2 ^ 32 - 2 ^ s = (2 ^ (32 - s) - 1) <<< s := by
    rw [Nat.shiftLeft_eq, Nat.sub_mul, one_mul, ← pow_add]
    congr 2
    omega
  have hrhs : x % 2 ^ 32 / 2 ^ s * 2 ^ s = ((x % 2 ^ 32) >>> s) <<< s := by
    rw [Nat.shiftLeft_eq, Nat.shiftRight_eq_div_pow]
  rw [hmask, hrhs]
  apply Nat.eq_of_testBit_eq
  intro i
  rw [Nat.testBit_land, Nat.testBit_shiftLeft, Nat.testBit_shiftLeft,
    Nat.testBit_two_pow_sub_one, Nat.testBit_shiftRight, Nat.testBit_mod_two_pow]
  by_cases hi : s ≤ i
  · have he : s + (i - s) = i := by omega
    have hd : (decide (i ≥ s)) = true := by
      simp [ge_iff_le, hi]
    have hdd : decide (i - s < 32 - s) = decide (i < 32) := by
      rw [decide_eq_decide]
      omega
    rw [he, hd, hdd]
    cases hx : x.testBit i <;> cases h32 : decide (i < 32) <;> simp
  · have hd : (decide (i ≥ s)) = false := by
      simp [ge_iff_le]
      omega
    rw [hd]
    simp

/-- For prefix lengths `1 ≤ p ≤ 32` the computed mask is the usual
CIDR network mask. -/
theorem allocMask_eq (p : Nat) (h1 : 1 ≤ p) (h2 : p ≤ 32) :
    allocMask p = 2 ^ 32 - 2 ^ (32 - p) := by
  unfold allocMask wrapSub32
  dsimp only
  have hp : p % 2 ^ 32 = p := Nat.mod_eq_of_lt (by omega)
  rw [hp]
  have hs1 : (32 + (2 ^ 32 - p)) % 2 ^ 32 = 32 - p := by omega
  rw [hs1]
  have hs2 : (32 - p) % 32 = 32 - p := Nat.mod_eq_of_lt (by omega)
  rw [hs2]
  have hexp : (32 - p) + p = 32 := by omega
  have hshr : (0xFFFFFFFF : Nat) >>> (32 - p) = 2 ^ p - 1 := by
    rw [Nat.shiftRight_eq_div_pow]
    have hall : (0xFFFFFFFF : Nat) = 2 ^ ((32 - p) + p) - 1 := by
      rw [hexp]
      norm_num
    rw [hall, pow_sub_one_div]
  rw [hshr, Nat.shiftLeft_eq, Nat.sub_mul, one_mul, ← pow_add]
  have hpp : p + (32 - p) = 32 := by omega
  rw [hpp]
  have hlt : 2 ^ 32 - 2 ^ (32 - p) < 2 ^ 32 := by
    have hpos : 0 < 2 ^ (32 - p) := Nat.pos_pow_of_pos _ (by omega)
    have hle : 2 ^ (32 - p) ≤ 2 ^ 32 := Nat.pow_le_pow_right (by omega) (by omega)
    omega
  exact Nat.mod_eq_of_lt hlt

/-- For prefix lengths `1 ≤ p ≤ 31` the computed increment is the block
size `2 ^ (32 - p)`. -/
theorem allocNext_eq (p : Nat) (h1 : 1 ≤ p) (h2 : p ≤ 31) :
    allocNext p = 2 ^ (32 - p) := by
  unfold allocNext
  have hp : p % 32 = p := Nat.mod_eq_of_lt (by omega)
  rw [hp]
  have hexp : p + (32 - p) = 32 := by omega
  have hshr : (0xFFFFFFFF : Nat) >>> p = 2 ^ (32 - p) - 1 := by
    rw [Nat.shiftRight_eq_div_pow]
    have hall : (0xFFFFFFFF : Nat) = 2 ^ (p + (32 - p)) - 1 := by
      rw [hexp]
      norm_num
    rw [hall, pow_sub_one_div]
  rw [hshr]
  have hpos : 0 < 2 ^ (32 - p) := Nat.pos_pow_of_pos _ (by omega)
  have hle : 2 ^ (32 - p) ≤ 2 ^ 31 := Nat.pow_le_pow_right (by omega) (by omega)
  have hadd : 2 ^ (32 - p) - 1 + 1 = 2 ^ (32 - p) := by omega
  rw [hadd]
  exact Nat.mod_eq_of_lt (by omega)

/-- `a ∣ b → b % a = 0`. -/
theorem mod_of_dvd {a b : Nat} (h : a ∣ b) : b % a = 0 := by
  obtain ⟨k, hk⟩ := h
  subst hk
  exact Nat.mul_mod_right a k

/-- A route participates in the allocator scan with destination value `d`
and prefix length `p`: it is not skipped by any of the `continue` branches of
the loop (src/main.rs:84-100): it has a destination of prefix length `p ≠ 0`
that converts to the 4-byte IPv4 value `d`, and `d` lies in
`172.16.0.0/12`. -/
def Constrains (r : Route) (d p : Nat) : Prop :=
  (∃ a, r.dst = some a ∧ a.cidrlen = p) ∧ p ≠ 0 ∧ routeKey r = some d ∧
    d &&& 0xFFF00000 = 0xAC100000

/-- The pair `(d, p)` a route constrains with is unique. -/
theorem constrains_unique {r : Route} {d1 p1 d2 p2 : Nat}
    (h1 : Constrains r d1 p1) (h2 : Constrains r d2 p2) : d1 = d2 ∧ p1 = p2 := by
  obtain ⟨⟨a1, ha1, hc1⟩, _, hk1, _⟩ := h1
  obtain ⟨⟨a2, ha2, hc2⟩, _, hk2, _⟩ := h2
  rw [ha1] at ha2
  injection ha2 with haa
  subst haa
  rw [hk1] at hk2
  injection hk2 with hdd
  exact ⟨hdd, by omega⟩

/-- Bounds forced on an aligned constraining destination: it lies between
`172.16.0.0` and `172.32.0.0`, and its block size is at most `2 ^ 20`
(equivalently the prefix is at least 12 bits). -/
theorem d_bounds (d p : Nat) (hd32 : d < 2 ^ 32)
    (hrange : d &&& 0xFFF00000 = 0xAC100000) (halign : d % 2 ^ (32 - p) = 0) :
    0xAC100000 ≤ d ∧ d < 0xAC200000 ∧ 32 - p ≤ 20 := by
  rw [show (0xFFF00000 : Nat) = 2 ^ 32 - 2 ^ 20 by norm_num] at hrange
  rw [land_mask_eq d 20 (by omega), Nat.mod_eq_of_lt hd32] at hrange
  rw [show (2 ^ 20 : Nat) = 1048576 by norm_num] at hrange
  have hb1 : 0xAC100000 ≤ d ∧ d < 0xAC200000 := by
    constructor <;> omega
  refine ⟨hb1.1, hb1.2, ?_⟩
  by_contra hgt
  push_neg at hgt
  have hdvd : (2 ^ 21 : Nat) ∣ 2 ^ (32 - p) := pow_dvd_pow 2 (by omega)
  have hdvd2 : (2 ^ 21 : Nat) ∣ d := hdvd.trans (Nat.dvd_of_mod_eq_zero halign)
  have hm : d % 2 ^ 21 = 0 := mod_of_dvd hdvd2
  rw [show (2 ^ 21 : Nat) = 2097152 by norm_num] at hm
  omega

/-- A route that is skipped by the loop leaves the candidate unchanged. -/
theorem allocStep_of_not_constrains (c : Nat) (r : Route)
    (h : ∀ d p, ¬ Constrains r d p) : allocStep c r = c := by
  unfold allocStep
  cases hdst : r.dst with
  | none => rfl
  | some dst =>
    by_cases hc0 : dst.cidrlen = 0
    · simp [hc0]
    · cases htf : Ipv4Addr.tryFromAddr dst with
      | error e => simp [hc0, htf]
      | ok ip =>
        by_cases hrange : ip.toU32 &&& 0xFFF00000 = 0xAC100000
        · exfalso
          apply h ip.toU32 dst.cidrlen
          refine ⟨⟨dst, hdst, rfl⟩, hc0, ?_, hrange⟩
          unfold routeKey
          rw [hdst]
          simp [htf]
        · simp [hc0, htf, hrange]

/-- A constraining, self-aligned route of prefix length at most 30 advances
the candidate exactly when the candidate lies in the route's block, and then
to the first address past the block. -/
theorem allocStep_of_constrains (r : Route) (d p : Nat) (hC : Constrains r d p)
    (hd32 : d < 2 ^ 32) (hp30 : p ≤ 30) (halign : d % 2 ^ (32 - p) = 0)
    (c : Nat) (hc : c < 2 ^ 32) :
    allocStep c r =
      if d / 2 ^ (32 - p) = c / 2 ^ (32 - p) then d + 2 ^ (32 - p) else c := by
  obtain ⟨⟨a, hdst, hcl⟩, hp0, hkey, hrange⟩ := hC
  have hp1 : 1 ≤ p := by omega
  have hkey2 : (match Ipv4Addr.tryFromAddr a with
      | .ok ip => some ip.toU32
      | .error _ => none) = some d := by
    unfold routeKey at hkey
    rw [hdst] at hkey
    exact hkey
  obtain ⟨ip, htf, hip⟩ : ∃ ip, Ipv4Addr.tryFromAddr a = .ok ip ∧ ip.toU32 = d := by
    cases htf : Ipv4Addr.tryFromAddr a with
    | error e =>
      rw [htf] at hkey2
      exact absurd hkey2 (by simp)
    | ok ip =>
      rw [htf] at hkey2
      exact ⟨ip, rfl, by simpa using hkey2⟩
  have hbounds := d_bounds d p hd32 hrange halign
  have hEpos : 0 < 2 ^ (32 - p) := Nat.pos_pow_of_pos _ (by omega)
  have hEle : 2 ^ (32 - p) ≤ 2 ^ 20 := Nat.pow_le_pow_right (by omega) (by omega)
  have hsum : d + 2 ^ (32 - p) < 2 ^ 32 := by omega
  unfold allocStep
  rw [hdst]
  dsimp only
  rw [hcl, if_neg hp0, htf]
  dsimp only
  rw [hip, if_neg (not_not_intro hrange), allocMask_eq p hp1 (by omega)]
  rw [land_mask_eq d (32 - p) (by omega), land_mask_eq c (32 - p) (by omega),
    Nat.mod_eq_of_lt hd32, Nat.mod_eq_of_lt hc]
  split_ifs with hA hB hB
  · rw [allocNext_eq p hp1 (by omega)]
    exact Nat.mod_eq_of_lt hsum
  · exact absurd (Nat.eq_of_mul_eq_mul_right hEpos hA) hB
  · exact absurd (by rw [hB]) hA
  · rfl

/-- If the candidate is in none of the blocks but the division values
differ, the candidate is strictly below the block or at least past it. -/
theorem div_ne_cases (c d E : Nat) (hE : 0 < E) (halign : d % E = 0)
    (hne : d / E ≠ c / E) : c < d ∨ d + E ≤ c := by
  rcases Nat.lt_trichotomy (c / E) (d / E) with h | h | h
  · left
    by_contra hge
    push_neg at hge
    exact absurd (Nat.div_le_div_right hge : d / E ≤ c / E) (by omega)
  · exact absurd h.symm hne
  · right
    have h2 : (d / E + 1) * E ≤ c / E * E := Nat.mul_le_mul_right E h
    have h3 : c / E * E ≤ c := Nat.div_mul_le_self c E
    have h4 : d / E * E = d := Nat.div_mul_cancel (Nat.dvd_of_mod_eq_zero halign)
    have h5 : (d / E + 1) * E = d + E := by
      rw [Nat.add_mul, one_mul, h4]
    omega

/-- If the candidate is strictly below every constraining destination of a
(well-formed) route list, the scan leaves it unchanged. -/
theorem fold_freeze : ∀ (L : List Route) (c : Nat), c < 2 ^ 32 →
    (∀ r ∈ L, ∀ d p, Constrains r d p →
      d < 2 ^ 32 ∧ p ≤ 30 ∧ d % 2 ^ (32 - p) = 0 ∧ c < d) →
    L.foldl allocStep c = c := by
  intro L
  induction L with
  | nil =>
    intro c _ _
    rfl
  | cons r T ih =>
    intro c hc h
    have hstep : allocStep c r = c := by
      by_cases hex : ∃ d p, Constrains r d p
      · obtain ⟨d, p, hC⟩ := hex
        obtain ⟨hd32, hp30, halign, hcd⟩ := h r (List.mem_cons_self r T) d p hC
        rw [allocStep_of_constrains r d p hC hd32 hp30 halign c hc]
        rw [if_neg]
        intro heq
        have hEpos : 0 < 2 ^ (32 - p) := Nat.pos_pow_of_pos _ (by omega)
        have h1 : d / 2 ^ (32 - p) * 2 ^ (32 - p) = d :=
          Nat.div_mul_cancel (Nat.dvd_of_mod_eq_zero halign)
        have h2 : c / 2 ^ (32 - p) * 2 ^ (32 - p) ≤ c := Nat.div_mul_le_self c _
        rw [heq] at h1
        omega
      · push_neg at hex
        exact allocStep_of_not_constrains c r hex
    rw [List.foldl_cons, hstep]
    exact ih c hc (fun r2 hr2 d p hC => h r2 (List.mem_cons_of_mem r hr2) d p hC)

/-- Main invariant of the allocator scan over a key-sorted route list whose
constraining routes are self-aligned with prefix length at most 30: the
candidate stays a 32-bit multiple of 4, never decreases, and ends outside
(below or past) the block of every constraining route. -/
theorem fold_invariant : ∀ (L : List Route) (c : Nat),
    (∀ r ∈ L, ∀ d p, Constrains r d p →
      d < 2 ^ 32 ∧ p ≤ 30 ∧ d % 2 ^ (32 - p) = 0) →
    List.Pairwise okLe L → c < 2 ^ 32 → c % 4 = 0 →
    L.foldl allocStep c < 2 ^ 32 ∧ (L.foldl allocStep c) % 4 = 0 ∧
    c ≤ L.foldl allocStep c ∧
    ∀ r ∈ L, ∀ d p, Constrains r d p →
      L.foldl allocStep c + 4 ≤ d ∨ d + 2 ^ (32 - p) ≤ L.foldl allocStep c := by
  intro L
  induction L with
  | nil =>
    intro c _ _ hc h4
    exact ⟨hc, h4, Nat.le_refl c, by simp⟩
  | cons r T ih =>
    intro c hgood hpw hc h4
    have hgoodT : ∀ r2 ∈ T, ∀ d p, Constrains r2 d p →
        d < 2 ^ 32 ∧ p ≤ 30 ∧ d % 2 ^ (32 - p) = 0 :=
      fun r2 hr2 d p hC => hgood r2 (List.mem_cons_of_mem r hr2) d p hC
    obtain ⟨hhead, htail⟩ := List.pairwise_cons.mp hpw
    by_cases hex : ∃ d p, Constrains r d p
    · obtain ⟨d, p, hC⟩ := hex
      obtain ⟨hd32, hp30, halign⟩ := hgood r (List.mem_cons_self r T) d p hC
      have hp1 : 1 ≤ p := by
        have := hC.2.1
        omega
      have hbounds := d_bounds d p hd32 hC.2.2.2 halign
      have hEpos : 0 < 2 ^ (32 - p) := Nat.pos_pow_of_pos _ (by omega)
      have hEle : 2 ^ (32 - p) ≤ 2 ^ 20 := Nat.pow_le_pow_right (by omega) (by omega)
      have hE4 : (4 : Nat) ∣ 2 ^ (32 - p) := by
        have h22 : (2 : Nat) ^ 2 ∣ 2 ^ (32 - p) := pow_dvd_pow 2 (by omega)
        simpa using h22
      have hd4 : d % 4 = 0 :=
        mod_of_dvd (hE4.trans (Nat.dvd_of_mod_eq_zero halign))
      rw [List.foldl_cons, allocStep_of_constrains r d p hC hd32 hp30 halign c hc]
      split_ifs with hcond
      · have hc1lt : d + 2 ^ (32 - p) < 2 ^ 32 := by omega
        have hc14 : (d + 2 ^ (32 - p)) % 4 = 0 := by
          have hE4m : 2 ^ (32 - p) % 4 = 0 := mod_of_dvd hE4
          omega
        have hcle : c ≤ d + 2 ^ (32 - p) := by
          have h1 : 2 ^ (32 - p) * (c / 2 ^ (32 - p)) + c % 2 ^ (32 - p) = c :=
            Nat.div_add_mod c _
          have h2 : d / 2 ^ (32 - p) * 2 ^ (32 - p) = d :=
            Nat.div_mul_cancel (Nat.dvd_of_mod_eq_zero halign)
          rw [← hcond, Nat.mul_comm, h2] at h1
          have h3 : c % 2 ^ (32 - p) < 2 ^ (32 - p) := Nat.mod_lt _ hEpos
          omega
        obtain ⟨ihlt, ih4, ihle, ihdisj⟩ := ih (d + 2 ^ (32 - p)) hgoodT htail hc1lt hc14
        refine ⟨ihlt, ih4, Nat.le_trans hcle ihle, ?_⟩
        intro r2 hr2 d2 p2 hC2
        rcases List.mem_cons.mp hr2 with heq | hmem
        · subst heq
          obtain ⟨hdd, hpp⟩ := constrains_unique hC hC2
          subst hdd
          subst hpp
          exact Or.inr ihle
        · exact ihdisj r2 hmem d2 p2 hC2
      · rcases div_ne_cases c d (2 ^ (32 - p)) hEpos halign hcond with hlt | hge
        · have hfr : T.foldl allocStep c = c := by
            apply fold_freeze T c hc
            intro r2 hr2 d2 p2 hC2
            obtain ⟨ha2, hb2, hcal2⟩ := hgoodT r2 hr2 d2 p2 hC2
            refine ⟨ha2, hb2, hcal2, ?_⟩
            have hle2 := hhead r2 hr2
            have hk : routeKey r = some d := hC.2.2.1
            have hk2 : routeKey r2 = some d2 := hC2.2.2.1
            unfold okLe at hle2
            rw [hk, hk2] at hle2
            have hdd2 : d ≤ d2 := hle2
            omega
          rw [hfr]
          refine ⟨hc, h4, Nat.le_refl c, ?_⟩
          intro r2 hr2 d2 p2 hC2
          rcases List.mem_cons.mp hr2 with heq | hmem
          · subst heq
            obtain ⟨hdd, hpp⟩ := constrains_unique hC hC2
            subst hdd
            subst hpp
            exact Or.inl (by omega)
          · obtain ⟨ha2, hb2, hcal2⟩ := hgoodT r2 hmem d2 p2 hC2
            have hle2 := hhead r2 hmem
            have hk : routeKey r = some d := hC.2.2.1
            have hk2 : routeKey r2 = some d2 := hC2.2.2.1
            unfold okLe at hle2
            rw [hk, hk2] at hle2
            have hdd2 : d ≤ d2 := hle2
            have hE42 : (4 : Nat) ∣ 2 ^ (32 - p2) := by
              have h222 : (2 : Nat) ^ 2 ∣ 2 ^ (32 - p2) := by
                apply pow_dvd_pow 2
                have := hC2.2.1
                omega
              simpa using h222
            have hd42 : d2 % 4 = 0 :=
              mod_of_dvd (hE42.trans (Nat.dvd_of_mod_eq_zero hcal2))
            exact Or.inl (by omega)
        · obtain ⟨ihlt, ih4, ihle, ihdisj⟩ := ih c hgoodT htail hc h4
          refine ⟨ihlt, ih4, ihle, ?_⟩
          intro r2 hr2 d2 p2 hC2
          rcases List.mem_cons.mp hr2 with heq | hmem
          · subst heq
            obtain ⟨hdd, hpp⟩ := constrains_unique hC hC2
            subst hdd
            subst hpp
            exact Or.inr (Nat.le_trans hge ihle)
          · exact ihdisj r2 hmem d2 p2 hC2
    · push_neg at hex
      rw [List.foldl_cons, allocStep_of_not_constrains c r hex]
      obtain ⟨ihlt, ih4, ihle, ihdisj⟩ := ih c hgoodT htail hc h4
      refine ⟨ihlt, ih4, ihle, ?_⟩
      intro r2 hr2 d2 p2 hC2
      rcases List.mem_cons.mp hr2 with heq | hmem
      · subst heq
        exact absurd hC2 (hex d2 p2)
      · exact ihdisj r2 hmem d2 p2 hC2

/-- `keyLeOpt` is antisymmetric. -/
theorem keyLeOpt_antisymm : ∀ {x y : Option Nat},
    keyLeOpt x y → keyLeOpt y x → x = y := by
  intro x y h1 h2
  cases x <;> cases y <;> simp [keyLeOpt] at h1 h2 ⊢ <;> omega

/-- Two key-sorted permutations of each other whose keys are pairwise
distinct are equal as lists. -/
theorem sorted_key_perm_eq : ∀ (L1 L2 : List Route), L1.Perm L2 →
    List.Pairwise okLe L1 → List.Pairwise okLe L2 →
    List.Pairwise (fun a b => routeKey a ≠ routeKey b) L1 → L1 = L2 := by
  intro L1
  induction L1 with
  | nil =>
    intro L2 hp _ _ _
    exact (hp.symm.eq_nil).symm
  | cons a T1 ih =>
    intro L2 hp hs1 hs2 hnd
    cases L2 with
    | nil =>
      exact absurd hp.eq_nil (by simp)
    | cons b T2 =>
      have hab : a = b := by
        by_contra hne
        have hbmem : b ∈ a :: T1 := hp.mem_iff.mpr (List.mem_cons_self b T2)
        have hamem : a ∈ b :: T2 := hp.mem_iff.mp (List.mem_cons_self a T1)
        have hbT1 : b ∈ T1 := by
          rcases List.mem_cons.mp hbmem with h | h
          · exact absurd h.symm hne
          · exact h
        have haT2 : a ∈ T2 := by
          rcases List.mem_cons.mp hamem with h | h
          · exact absurd h hne
          · exact h
        have h1 : okLe a b := (List.pairwise_cons.mp hs1).1 b hbT1
        have h2 : okLe b a := (List.pairwise_cons.mp hs2).1 a haT2
        have hkeq : routeKey a = routeKey b := keyLeOpt_antisymm h1 h2
        exact (List.pairwise_cons.mp hnd).1 b hbT1 hkeq
      subst hab
      have hT : T1.Perm T2 := hp.cons_inv
      rw [ih T2 hT (List.pairwise_cons.mp hs1).2 (List.pairwise_cons.mp hs2).2
        (List.pairwise_cons.mp hnd).2]

/-- The allocator result only depends on the key-sorted snapshot: two
permutations of the same routes with pairwise distinct keys give the same
result. -/
theorem find_eq_of_perm_of_nodupkeys (l1 l2 : List Route) (hperm : l1.Perm l2)
    (hnd : List.Pairwise (fun a b => routeKey a ≠ routeKey b) l1) :
    find_tunnel_ip_range l1 = find_tunnel_ip_range l2 := by
  have hnds : List.Pairwise (fun a b => routeKey a ≠ routeKey b) (sortRoutes l1) := by
    refine (List.Perm.pairwise_iff (fun h => h.symm) ?_).mpr hnd
    exact List.perm_insertionSort okLe l1
  have heq : sortRoutes l1 = sortRoutes l2 := by
    apply sorted_key_perm_eq
    · exact (List.perm_insertionSort okLe l1).trans
        (hperm.trans (List.perm_insertionSort okLe l2).symm)
    · exact List.sorted_insertionSort okLe l1
    · exact List.sorted_insertionSort okLe l2
    · exact hnds
  unfold find_tunnel_ip_range allocCandidate
  rw [heq]

/-- The sort key of a concrete route built from a 32-bit value is that
value. -/
theorem routeKey_mkRoute (n p : Nat) (h : n < 2 ^ 32) :
    routeKey (mkRoute n p) = some n := by
  have htf : Ipv4Addr.tryFromAddr
      ⟨[n / 2 ^ 24 % 256, n / 2 ^ 16 % 256, n / 2 ^ 8 % 256, n % 256], p⟩ =
      .ok ⟨n / 2 ^ 24 % 256, n / 2 ^ 16 % 256, n / 2 ^ 8 % 256, n % 256⟩ := by
    unfold Ipv4Addr.tryFromAddr
    rfl
  simp only [routeKey, mkRoute, Option.some_bind, htf, Ipv4Addr.toU32,
    Option.some.injEq]
  omega

/-- The saturating snapshot of §8 of the spec: /30 blocks at every address
from `172.16.0.0` to `172.31.255.252`. -/
def satSnapshot : List Route :=
  (List.range 262144).map (fun i => mkRoute (0xAC100000 + 4 * i) 30)

/-- The saturating snapshot is already key-sorted. -/
theorem satSnapshot_sorted : sortRoutes satSnapshot = satSnapshot := by
  apply List.Sorted.insertionSort_eq
  unfold satSnapshot
  apply List.pairwise_map.mpr
  apply List.Pairwise.imp_of_mem ?_ (List.pairwise_lt_range 262144)
  intro i j hi hj hij
  have hi2 : i < 262144 := List.mem_range.mp hi
  have hj2 : j < 262144 := List.mem_range.mp hj
  unfold okLe
  rw [routeKey_mkRoute _ _ (by omega), routeKey_mkRoute _ _ (by omega)]
  show 0xAC100000 + 4 * i ≤ 0xAC100000 + 4 * j
  omega

/-- Scanning a run of adjacent /30 blocks walks the candidate to the end of
the run. -/
theorem sat_fold : ∀ (n k : Nat), k + n ≤ 262144 →
    ((List.range' k n).map
      (fun i => mkRoute (0xAC100000 + 4 * i) 30)).foldl allocStep
        (0xAC100000 + 4 * k) = 0xAC100000 + 4 * (k + n) := by
  intro n
  induction n with
  | zero =>
    intro k _
    simp
  | succ m ih =>
    intro k hk
    rw [List.range'_succ, List.map_cons, List.foldl_cons]
    have hd32 : 0xAC100000 + 4 * k < 2 ^ 32 := by omega
    have hstep : allocStep (0xAC100000 + 4 * k) (mkRoute (0xAC100000 + 4 * k) 30) =
        0xAC100000 + 4 * (k + 1) := by
      have hC : Constrains (mkRoute (0xAC100000 + 4 * k) 30) (0xAC100000 + 4 * k) 30 := by
        refine ⟨⟨_, rfl, rfl⟩, by omega, routeKey_mkRoute _ _ hd32, ?_⟩
        rw [show (0xFFF00000 : Nat) = 2 ^ 32 - 2 ^ 20 by norm_num,
          land_mask_eq _ 20 (by omega), Nat.mod_eq_of_lt hd32,
          show (2 ^ 20 : Nat) = 1048576 by norm_num]
        omega
      have halign : (0xAC100000 + 4 * k) % 2 ^ (32 - 30) = 0 := by
        rw [show (2 ^ (32 - 30) : Nat) = 4 by norm_num]
        omega
      rw [allocStep_of_constrains _ _ _ hC hd32 (by omega) halign _ hd32,
        if_pos rfl, show (2 ^ (32 - 30) : Nat) = 4 by norm_num]
      omega
    rw [hstep]
    have hih := ih (k + 1) (by omega)
    rw [hih]
    omega

/-- C1 (counterexample): for the snapshot `[172.16.0.0/31, 172.16.0.4/30]`,
`find_tunnel_ip_range` returns `172.16.0.2`, which is not aligned to a /30
boundary, and whose four-address block `172.16.0.2..172.16.0.5` overlaps the
destination prefix `172.16.0.4/30` of the second route — refuting the
claimed alignment and non-overlap guarantees. -/
theorem claim_C1_counterexample :
    find_tunnel_ip_range [mkRoute 0xAC100000 31, mkRoute 0xAC100004 30] =
      .ok 0xAC100002 ∧
    ¬ (0xAC100002 % 4 = 0) ∧
    routeKey (mkRoute 0xAC100004 30) = some 0xAC100004 ∧
    0xAC100002 ≤ 0xAC100004 ∧ 0xAC100004 < 0xAC100002 + 4 := by
  decide

/-- C1 (amended): a successful result always lies inside `172.16.0.0/12`;
and when every route that participates in the scan (4-byte in-range
destination, nonzero prefix) has prefix length at most 30 and a destination
aligned to its own prefix length, the result is additionally /30-aligned and
its four-address block overlaps no such route's destination block. -/
theorem claim_C1_amended :
    (∀ (l : List Route) (res : Nat), find_tunnel_ip_range l = .ok res →
      res &&& 0xFFF00000 = 0xAC100000) ∧
    (∀ (l : List Route) (res : Nat),
      (∀ r ∈ l, ∀ d p, Constrains r d p →
        d < 2 ^ 32 ∧ p ≤ 30 ∧ d % 2 ^ (32 - p) = 0) →
      find_tunnel_ip_range l = .ok res →
      res % 4 = 0 ∧
      ∀ r ∈ l, ∀ d p, Constrains r d p →
        res + 4 ≤ d ∨ d + 2 ^ (32 - p) ≤ res) := by
  have hok : ∀ (l : List Route) (res : Nat), find_tunnel_ip_range l = .ok res →
      res = allocCandidate l ∧ allocCandidate l &&& 0xFFF00000 = 0xAC100000 := by
    intro l res h
    unfold find_tunnel_ip_range at h
    by_cases hc : allocCandidate l &&& 0xFFF00000 ≠ 0xAC100000
    · rw [if_pos hc] at h
      exact absurd h (by simp)
    · rw [if_neg hc] at h
      push_neg at hc
      injection h with h2
      exact ⟨h2.symm, hc⟩
  constructor
  · intro l res h
    obtain ⟨h1, h2⟩ := hok l res h
    rw [h1]
    exact h2
  · intro l res hgood hres
    obtain ⟨h1, _⟩ := hok l res hres
    have hgoodS : ∀ r ∈ sortRoutes l, ∀ d p, Constrains r d p →
        d < 2 ^ 32 ∧ p ≤ 30 ∧ d % 2 ^ (32 - p) = 0 := by
      intro r hr
      apply hgood
      exact (List.mem_insertionSort okLe).mp hr
    have hpw : List.Pairwise okLe (sortRoutes l) := List.sorted_insertionSort okLe l
    obtain ⟨_, h4, _, hdisj⟩ :=
      fold_invariant (sortRoutes l) 0xAC100000 hgoodS hpw (by norm_num) (by norm_num)
    subst h1
    refine ⟨h4, ?_⟩
    intro r hr d p hC
    exact hdisj r ((List.mem_insertionSort okLe).mpr hr) d p hC

/-- C1 (witness): the amended theorem applied to the snapshot
`[172.16.0.0/30]`, an aligned /30 route: the allocator returns `172.16.0.4`,
which is in range, /30-aligned, and disjoint from the route's block. -/
theorem claim_C1_witness :
    find_tunnel_ip_range [mkRoute 0xAC100000 30] = .ok 0xAC100004 ∧
    0xAC100004 &&& 0xFFF00000 = 0xAC100000 ∧
    0xAC100004 % 4 = 0 ∧
    (∀ r ∈ [mkRoute 0xAC100000 30], ∀ d p, Constrains r d p →
      0xAC100004 + 4 ≤ d ∨ d + 2 ^ (32 - p) ≤ 0xAC100004) := by
  have hfind : find_tunnel_ip_range [mkRoute 0xAC100000 30] = .ok 0xAC100004 := by
    decide
  have hgood : ∀ r ∈ [mkRoute 0xAC100000 30], ∀ d p, Constrains r d p →
      d < 2 ^ 32 ∧ p ≤ 30 ∧ d % 2 ^ (32 - p) = 0 := by
    intro r hr d p hC
    have hr2 : r = mkRoute 0xAC100000 30 := by
      simpa using hr
    subst hr2
    obtain ⟨⟨a, ha, hcl⟩, hp0, hkey, hrange⟩ := hC
    have ha2 : a = ⟨[172, 16, 0, 0], 30⟩ := by
      simpa [mkRoute] using ha.symm
    have hd : d = 0xAC100000 := by
      rw [routeKey_mkRoute _ _ (by norm_num)] at hkey
      injection hkey with h2
      exact h2.symm
    subst hd
    refine ⟨by norm_num, ?_, ?_⟩
    · rw [← hcl, ha2]
    · rw [← hcl, ha2]
      norm_num
  have hmain := claim_C1_amended.2 [mkRoute 0xAC100000 30] 0xAC100004 hgood hfind
  exact ⟨hfind, claim_C1_amended.1 _ _ hfind, hmain.1, hmain.2⟩

/-- C5: a snapshot consisting of the three /30 blocks at 172.16.0.0,
172.16.0.4 and 172.16.0.8 (in any order) yields 172.16.0.12, and the empty
snapshot yields 172.16.0.0. -/
theorem claim_C5 :
    (∀ l : List Route,
      l.Perm [mkRoute 0xAC100000 30, mkRoute 0xAC100004 30, mkRoute 0xAC100008 30] →
      find_tunnel_ip_range l = .ok 0xAC10000C) ∧
    find_tunnel_ip_range [] = .ok 0xAC100000 := by
  constructor
  · intro l hl
    have hnd : List.Pairwise (fun a b => routeKey a ≠ routeKey b) l := by
      refine (List.Perm.pairwise_iff (fun h => h.symm) hl).mpr ?_
      decide
    rw [find_eq_of_perm_of_nodupkeys l _ hl hnd]
    decide
  · decide

/-- C5 (witness): the first conjunct applied to the three-route snapshot in
its given order. -/
theorem claim_C5_witness :
    find_tunnel_ip_range
      [mkRoute 0xAC100000 30, mkRoute 0xAC100004 30, mkRoute 0xAC100008 30] =
      .ok 0xAC10000C :=
  claim_C5.1 _ (List.Perm.refl _)

/-- C6: the allocator fails exactly when the final candidate's top 12 bits
(its `&&& 0xFFF00000` part) differ from those of 172.16.0.0; and on the
saturating snapshot (/30 blocks at every address of the /12) it fails. -/
theorem claim_C6 :
    (∀ l : List Route,
      find_tunnel_ip_range l = .noTunnelRangeAvailable ↔
        allocCandidate l &&& 0xFFF00000 ≠ 0xAC100000) ∧
    find_tunnel_ip_range satSnapshot = .noTunnelRangeAvailable := by
  have hiff : ∀ l : List Route,
      find_tunnel_ip_range l = .noTunnelRangeAvailable ↔
        allocCandidate l &&& 0xFFF00000 ≠ 0xAC100000 := by
    intro l
    unfold find_tunnel_ip_range
    by_cases hc : allocCandidate l &&& 0xFFF00000 ≠ 0xAC100000
    · rw [if_pos hc]
      simp [hc]
    · rw [if_neg hc]
      simp [hc]
  refine ⟨hiff, ?_⟩
  have hcand : allocCandidate satSnapshot = 0xAC200000 := by
    unfold allocCandidate
    rw [satSnapshot_sorted]
    unfold satSnapshot
    rw [List.range_eq_range']
    have hf := sat_fold 262144 0 (by omega)
    norm_num at hf ⊢
    exact hf
  rw [hiff, hcand]
  decide

/-- C7 (counterexample): two snapshots holding the same multiset of routes
(they differ only in the order of the two routes sharing destination
172.16.1.192) produce different allocator results, because the internal sort
is stable and leaves tied keys in input order. -/
theorem claim_C7_counterexample :
    [mkRoute 0xAC100000 25, mkRoute 0xAC100080 25, mkRoute 0xAC100100 25,
     mkRoute 0xAC1001C0 25, mkRoute 0xAC1001C0 24].Perm
    [mkRoute 0xAC100000 25, mkRoute 0xAC100080 25, mkRoute 0xAC100100 25,
     mkRoute 0xAC1001C0 24, mkRoute 0xAC1001C0 25] ∧
    find_tunnel_ip_range
      [mkRoute 0xAC100000 25, mkRoute 0xAC100080 25, mkRoute 0xAC100100 25,
       mkRoute 0xAC1001C0 25, mkRoute 0xAC1001C0 24] = .ok 0xAC100240 ∧
    find_tunnel_ip_range
      [mkRoute 0xAC100000 25, mkRoute 0xAC100080 25, mkRoute 0xAC100100 25,
       mkRoute 0xAC1001C0 24, mkRoute 0xAC1001C0 25] = .ok 0xAC1002C0 ∧
    (0xAC100240 : Nat) ≠ 0xAC1002C0 := by
  refine ⟨?_, by decide, by decide, by decide⟩
  decide

/-- C7 (amended): the allocator is order-independent for snapshots in which
no two routes share the same destination sort key: permuted snapshots with
pairwise distinct keys give identical results. -/
theorem claim_C7_amended (l1 l2 : List Route) (hperm : l1.Perm l2)
    (hnd : List.Pairwise (fun a b => routeKey a ≠ routeKey b) l1) :
    find_tunnel_ip_range l1 = find_tunnel_ip_range l2 :=
  find_eq_of_perm_of_nodupkeys l1 l2 hperm hnd

/-- C7 (witness): the amended theorem applied to two orderings of a
two-route snapshot with distinct keys. -/
theorem claim_C7_witness :
    find_tunnel_ip_range [mkRoute 0xAC100000 30, mkRoute 0xAC100004 30] =
      find_tunnel_ip_range [mkRoute 0xAC100004 30, mkRoute 0xAC100000 30] :=
  claim_C7_amended _ _ (by decide) (by decide)

/-- C9 (counterexample): the internal sort places a route without a
destination *before* a route with one (Rust's `Option` ordering treats
`None` as smallest), refuting the claim that routes with destinations come
first. -/
theorem claim_C9_counterexample :
    sortRoutes [mkRoute 0xAC100000 30, { dst := none }] =
      [{ dst := none }, mkRoute 0xAC100000 30] ∧
    ({ dst := none } : Route).dst = none ∧
    (mkRoute 0xAC100000 30).dst ≠ none := by
  refine ⟨by decide, rfl, by decide⟩

/-- C9 (amended): in the sorted sequence, every route lacking a sort key
(no destination, or a destination that does not convert to IPv4) precedes
every route having one, and the keyed routes appear in ascending key
order. -/
theorem claim_C9_amended (l : List Route) :
    List.Pairwise (fun a b => routeKey b = none → routeKey a = none)
      (sortRoutes l) ∧
    List.Pairwise (fun a b => ∀ x y, routeKey a = some x → routeKey b = some y → x ≤ y)
      (sortRoutes l) := by
  have hs : List.Pairwise okLe (sortRoutes l) := List.sorted_insertionSort okLe l
  constructor
  · refine hs.imp ?_
    intro a b hab
    unfold okLe at hab
    intro hb
    rw [hb] at hab
    cases hk : routeKey a with
    | none => rfl
    | some x =>
      rw [hk] at hab
      exact absurd hab (by simp [keyLeOpt])
  · refine hs.imp ?_
    intro a b hab
    unfold okLe at hab
    intro x y hx hy
    rw [hx, hy] at hab
    exact hab

/-- C9 (witness): the amended theorem applied to a concrete snapshot. -/
theorem claim_C9_witness :
    List.Pairwise (fun a b => routeKey b = none → routeKey a = none)
      (sortRoutes [mkRoute 0xAC100000 30, { dst := none }]) ∧
    List.Pairwise (fun a b => ∀ x y, routeKey a = some x → routeKey b = some y → x ≤ y)
      (sortRoutes [mkRoute 0xAC100000 30, { dst := none }]) :=
  claim_C9_amended _

/-- C8: converting an IPv4 value to the generic kernel address and back
yields the original value, and converting any generic address whose
underlying byte length is not 4 fails with the `AddressFamilyMismatch`
libnl code (15). -/
theorem claim_C8 :
    (∀ ip : Ipv4Addr, Ipv4Addr.tryFromAddr (Addr.ofIpv4 ip) = .ok ip) ∧
    (∀ a : Addr, a.bytes.length ≠ 4 → Ipv4Addr.tryFromAddr a = .error ⟨15⟩) := by
  constructor
  · intro ip
    cases ip
    rfl
  · intro a h
    unfold Ipv4Addr.tryFromAddr
    rw [dif_neg h]

/-- C8 (witness): the round trip at 192.168.1.1 and the failure on a 6-byte
hardware address. -/
theorem claim_C8_witness :
    Ipv4Addr.tryFromAddr (Addr.ofIpv4 ⟨192, 168, 1, 1⟩) = .ok ⟨192, 168, 1, 1⟩ ∧
    Ipv4Addr.tryFromAddr ⟨[0, 1, 2, 3, 4, 5], 0⟩ = .error ⟨15⟩ :=
  ⟨claim_C8.1 _, claim_C8.2 _ (by decide)⟩

/-- C10: iterating a cache yields at most `nitems` elements and never yields
the null object pointer, whatever the shape of the underlying chain. -/
theorem collect_spec (nf : Nat → Nat) (it : CacheIter) :
    (CacheIter.collect nf it).length ≤ it.cache_size - it.index ∧
    ∀ x ∈ CacheIter.collect nf it, x ≠ 0 := by
  rw [CacheIter.collect.eq_def]
  split
  · simp
  · rename_i x it2 heq
    have hs := CacheIter.nextItem_spec nf it x it2 heq
    have ih := collect_spec nf it2
    constructor
    · simp only [List.length_cons]
      omega
    · intro y hy
      rcases List.mem_cons.mp hy with hxy | hmem
      · rw [hxy]
        exact hs.2.2.2
      · exact ih.2 y hmem
termination_by it.cache_size - it.index
decreasing_by omega

/-- C10: for every cache, the full iteration (`Cache::iter` followed by
repeated `CacheIter::next`) terminates after at most `nitems` yielded
elements, and none of them is built from a null object pointer. -/
theorem claim_C10 (c : Cache) :
    (CacheIter.collect c.next c.iter).length ≤ c.nitems ∧
    ∀ x ∈ CacheIter.collect c.next c.iter, x ≠ 0 := by
  have h := collect_spec c.next c.iter
  unfold Cache.iter at h ⊢
  dsimp only at h
  exact ⟨by omega, h.2⟩

/-- C10 (witness): the theorem applied to a concrete three-element cache. -/
theorem claim_C10_witness :
    (CacheIter.collect (Cache.mk 5 (fun n => n + 1) 3).next
      (Cache.mk 5 (fun n => n + 1) 3).iter).length ≤ 3 ∧
    ∀ x ∈ CacheIter.collect (Cache.mk 5 (fun n => n + 1) 3).next
      (Cache.mk 5 (fun n => n + 1) 3).iter, x ≠ 0 :=
  claim_C10 (Cache.mk 5 (fun n => n + 1) 3)

/-- C2: the code permits an interleaving in which the child unshares, posts
`unshare_signal`, passes `sem_wait(move_signal)` immediately (the semaphore
was initialized to 1) and configures the peer interface, all before the
parent has executed a single step: the final state has the child finished
(`cpc = 4`) with the parent still at its start (`ppc = 0`, the peer not yet
moved). This contradicts the claimed ordering guarantee for `move_signal`. -/
theorem claim_C2_violation :
    runSched semInit [Act.unshareNs, Act.postU, Act.waitM, Act.config] =
      some { uSem := 1, mSem := 0, cpc := 4, ppc := 0 } := by
  decide

/-- C3 (counterexample): a rule-listing output in which the line carrying
this run's tag starts with a non-numeric token makes `clean_iptables`
propagate a parse error (the `?` on `.parse()`), so the cleanup phase can
abort — refuting "for every possible output ... returns success". -/
theorem claim_C3_counterexample :
    clean_iptables ["x /* dlsh1 */"] "dlsh1" = .error "invalid digit found in string" := by
  decide

/-- C3 (amended): whenever no listed line contains this run's tag comment —
in particular on a second cleanup run after the rule was already deleted —
`clean_iptables` succeeds with only a warning; an abort is possible only
when a matching line's leading token fails to parse as a 16-bit rule
number. -/
theorem claim_C3_amended (lines : List String) (tag : String)
    (h : ∀ l ∈ lines, containsSub l (patternOf tag) = false) :
    clean_iptables lines tag = .ok .warned := by
  unfold clean_iptables
  have hf : lines.find? (fun l => containsSub l (patternOf tag)) = none :=
    List.find?_eq_none.mpr (fun x hx => by rw [h x hx]; simp)
  rw [hf]

/-- C3 (witness): the amended theorem applied to a listing with no matching
line. -/
theorem claim_C3_witness :
    clean_iptables ["Chain FORWARD (policy ACCEPT)", "num pkts bytes target"]
      "dlsh5" = .ok .warned :=
  claim_C3_amended _ _ (by decide)

/-- C4: (a) for a well-formed listing — each line is numbered by its 1-based
position and carries this run's tag comment exactly when the corresponding
rule's comment equals the tag — cleanup deletes at most the single rule
whose comment equals the tag (so rules carrying other runs' tags are left
unchanged) and warns (deleting nothing) when no rule carries the tag;
(b) every rule installation of this run passes the run's tag as an attached
`--comment`. -/
theorem claim_C4 :
    (∀ (lines comments : List String) (tag : String)
      (hlen : lines.length = comments.length),
      (∀ i (hi : i < lines.length),
        Option.bind (tokensOf (lines.get ⟨i, hi⟩)).head? parseU16 = some (i + 1)) →
      (∀ i (hi : i < lines.length),
        (containsSub (lines.get ⟨i, hi⟩) (patternOf tag) = true ↔
          comments.get ⟨i, by omega⟩ = tag)) →
      (∀ n, clean_iptables lines tag = .ok (.deleted n) →
        ∃ hi : n - 1 < comments.length, n ≥ 1 ∧ comments.get ⟨n - 1, hi⟩ = tag) ∧
      (clean_iptables lines tag = .ok .warned →
        ∀ i (hi : i < comments.length), comments.get ⟨i, hi⟩ ≠ tag) ∧
      (∀ e, clean_iptables lines tag ≠ .error e)) ∧
    (∀ default_if container_ip source_ip tag : String,
      ["-m", "comment", "--comment", tag] <:+ masqueradeArgs default_if tag ∧
      ["-m", "comment", "--comment", tag] <:+ snatArgs container_ip source_ip tag ∧
      ["-m", "comment", "--comment", tag] <:+ forwardArgs container_ip tag) := by
  constructor
  · intro lines comments tag hlen hnum htag
    cases hfind : lines.find? (fun l => containsSub l (patternOf tag)) with
    | none =>
      have hclean : clean_iptables lines tag = .ok .warned := by
        unfold clean_iptables
        rw [hfind]
      refine ⟨?_, ?_, ?_⟩
      · intro n h
        rw [hclean] at h
        exact absurd h (by simp)
      · intro _ i hi
        have hall := List.find?_eq_none.mp hfind
        have hi2 : i < lines.length := by omega
        have hnp := hall (lines.get ⟨i, hi2⟩) (List.get_mem lines i hi2)
        intro heq
        apply hnp
        exact (htag i hi2).mpr heq
      · intro e h
        rw [hclean] at h
        exact absurd h (by simp)
    | some l =>
      have hmem : l ∈ lines := List.mem_of_find?_eq_some hfind
      obtain ⟨⟨i, hi⟩, hget⟩ := List.mem_iff_get.mp hmem
      have hpred : containsSub l (patternOf tag) = true := by
        have hp0 := List.find?_some hfind
        simpa using hp0
      have hnum2 := hnum i hi
      rw [hget] at hnum2
      cases hhead : (tokensOf l).head? with
      | none =>
        rw [hhead] at hnum2
        exact absurd hnum2 (by simp)
      | some tk =>
        rw [hhead] at hnum2
        simp only [Option.some_bind] at hnum2
        have hclean : clean_iptables lines tag = .ok (.deleted (i + 1)) := by
          unfold clean_iptables
          rw [hfind]
          dsimp only
          rw [hhead]
          dsimp only
          rw [hnum2]
        refine ⟨?_, ?_, ?_⟩
        · intro n h
          rw [hclean] at h
          have hn : n = i + 1 := by
            injection h with h2
            injection h2 with h3
            omega
          subst hn
          have hin : i < comments.length := by omega
          refine ⟨by simpa using hin, by omega, ?_⟩
          have hcm := (htag i hi).mp (by rw [hget]; exact hpred)
          have hidx : (⟨i + 1 - 1, by simpa using hin⟩ : Fin comments.length) =
              ⟨i, by omega⟩ := by
            apply Fin.ext
            simp
          rw [hidx]
          exact hcm
        · intro h
          rw [hclean] at h
          exact absurd h (by simp)
        · intro e h
          rw [hclean] at h
          exact absurd h (by simp)
  · intro default_if container_ip source_ip tag
    refine ⟨⟨["-t", "nat", "-A", "POSTROUTING", "-o", default_if, "-j", "MASQUERADE"], rfl⟩,
      ⟨["-t", "nat", "-A", "POSTROUTING", "-s", container_ip, "-j", "SNAT",
        "--to-source", source_ip], rfl⟩,
      ⟨["-t", "filter", "-A", "FORWARD", "-s", container_ip, "-j", "ACCEPT"], rfl⟩⟩

/-- C4 (witness): the theorem applied to a listing holding one rule of this
run (tag `dlshA`) and one rule of another run (tag `dlshB`): the run never
aborts, any deletion hits only the rule whose comment is `dlshA`, and the
installation argument lists end with the tag comment. -/
theorem claim_C4_witness :
    (∀ e, clean_iptables ["1 a /* dlshA */", "2 b /* dlshB */"] "dlshA" ≠ .error e) ∧
    (∀ n, clean_iptables ["1 a /* dlshA */", "2 b /* dlshB */"] "dlshA" =
        .ok (.deleted n) →
      ∃ hi : n - 1 < (["dlshA", "dlshB"] : List String).length,
        n ≥ 1 ∧ (["dlshA", "dlshB"] : List String).get ⟨n - 1, hi⟩ = "dlshA") ∧
    ["-m", "comment", "--comment", "dlshA"] <:+ masqueradeArgs "eth0" "dlshA" := by
  have h1 := claim_C4.1 ["1 a /* dlshA */", "2 b /* dlshB */"] ["dlshA", "dlshB"]
    "dlshA" (by decide) (by decide) (by decide)
  exact ⟨h1.2.2, h1.1, (claim_C4.2 "eth0" "172.16.0.2" "203.0.113.5" "dlshA").1⟩
